import Mathlib

/-!
Verification of the sdwriter copy/verify core (src/sdwriter.c) against its
natural-language specification.  The C program is shallowly embedded: the
chunked write/verify loops of `write_image` become pure state-passing
functions producing an event trace, machine arithmetic is modelled on
`Nat`/`Int` with explicit truncation where the C types make it observable,
and every fallible operation returns an `Option`.
-/

namespace Sdwriter

/-- Model of `sizeof(buf)` in `write_image`: the fixed 32768-byte chunk. -/
def chunkSize : Nat := 32768

/-- Ceiling division as the C code writes it: `(a + b - 1) / b`. -/
def ceilDivNat (a b : Nat) : Nat := (a + b - 1) / b

/-- Truncation of a nonnegative 64-bit value to C `int` (32-bit
twos-complement), as the assignments to the `int` locals of
`write_image` perform it.  Every value reaching such an assignment in `write_image` is
nonnegative — a chunk count or a remaining byte count computed in
`off_t`/`size_t` — so the argument is a `Nat`: low 32 bits, reread as a
signed value. -/
def toInt32 (x : Nat) : Int :=
  if x % 2 ^ 32 < 2 ^ 31 then ((x % 2 ^ 32 : Nat) : Int)
  else ((x % 2 ^ 32 : Nat) : Int) - 2 ^ 32

/-- The chunk count of the job: the trip count of
`for (count=0; count<nbytes; count+=sizeof(buf))` (sdwriter.c:654).
`count` and `nbytes` are 64-bit `off_t`, so this count is exact for any
real file size — unlike `progress_len32` below, it is never truncated. -/
def totalChunks (nbytes : Nat) : Nat := ceilDivNat nbytes chunkSize

/-- Model of `progress_len = (nbytes + sizeof(buf) - 1) / sizeof(buf)`
(sdwriter.c:639): the division is computed in 64-bit `size_t`, but the
result is stored into the 32-bit `int progress_len`, truncating — for
`nbytes = 2^46` (2^31 chunks) the stored value is `-2^31`. -/
def progress_len32 (nbytes : Nat) : Int := toInt32 (totalChunks nbytes)

/-- The step-search loop of `write_image` (sdwriter.c:638-645) restricted
to a nonnegative `progress_len`, where the C `int` division coincides
with `Nat` division: `for (progress_step=1; ; progress_step<<=1)` stops
at the first step with `progress_len / progress_step < 64`.  The full
signed loop is `stepLoop32` below; the two agree on nonnegative values
(`stepLoop32_ofNat`). -/
def stepLoop (len : Nat) : Nat → Nat → Nat
  | 0, step => step
  | fuel + 1, step => if len / step < 64 then step else stepLoop len fuel (step * 2)

/-- The step-search loop with full C `int` semantics: the truncated
`progress_len` may be negative, and `progress_len / progress_step` is
signed division truncating toward zero (`Int.tdiv`).  The C loop is
unbounded; the structural `fuel` only bounds the recursion, and 32
doublings always suffice for a 32-bit `progress_len` — a negative value
exits at step 1 and a nonnegative one (necessarily `< 2^31`) exits by
step `2^26`, so `int progress_step` never overflows either
(see `stepLoop32_exit`). -/
def stepLoop32 (len32 : Int) : Nat → Int → Int
  | 0, step => step
  | fuel + 1, step =>
    if len32.tdiv step < 64 then step else stepLoop32 len32 fuel (step * 2)

/-- The `progress_step` value chosen by `write_image` for a job of
`nbytes` total bytes, computed from the truncated `progress_len32`.  The
result always lies in `1..2^26`, so reading the `int` back as a `Nat`
count is exact. -/
def progress_step (nbytes : Nat) : Nat :=
  (stepLoop32 (progress_len32 nbytes) 32 1).toNat

/-- Model of `progress(step)` (sdwriter.c:486-495): increments the global
`progress_count`; emits a mark (and returns 1) iff the new count is a
multiple of `step`.  Result: (new count, mark emitted?). -/
def progress (step progress_count : Nat) : Nat × Bool :=
  (progress_count + 1, (progress_count + 1) % step == 0)

/-- Number of marks emitted by `n` successive `progress` calls starting
from counter value `count`. -/
def marksAfter (step : Nat) : Nat → Nat → Nat
  | _, 0 => 0
  | count, n + 1 =>
    (if (progress step count).2 then 1 else 0) + marksAfter step (progress step count).1 n

/-- Main correctness of the step-search loop: starting from step `s` with
enough fuel, it returns a multiple `s * 2^e` of the start value that
satisfies the exit condition of the loop, and `e` is minimal. -/
theorem stepLoop_correct (len : Nat) :
    ∀ fuel s, 0 < s → len / (s * 2 ^ fuel) < 64 →
      len / stepLoop len fuel s < 64 ∧
      ∃ e, stepLoop len fuel s = s * 2 ^ e ∧
        ∀ d, len / (s * 2 ^ d) < 64 → e ≤ d := by
  intro fuel
  induction fuel with
  | zero =>
    intro s hs h
    simp only [pow_zero, mul_one] at h
    refine ⟨by simpa [stepLoop] using h, 0, by simp [stepLoop], ?_⟩
    intro d _
    exact Nat.zero_le d
  | succ fuel ih =>
    intro s hs h
    by_cases h0 : len / s < 64
    · refine ⟨by simp [stepLoop, h0], 0, by simp [stepLoop, h0], ?_⟩
      intro d _
      exact Nat.zero_le d
    · have h' : len / (s * 2 * 2 ^ fuel) < 64 := by
        have : s * 2 * 2 ^ fuel = s * 2 ^ (fuel + 1) := by ring
        rwa [this]
      have hs2 : 0 < s * 2 := by omega
      obtain ⟨hlt, e, heq, hmin⟩ := ih (s * 2) hs2 h'
      refine ⟨by simpa [stepLoop, h0] using hlt, e + 1, ?_, ?_⟩
      · simp only [stepLoop, if_neg h0]
        rw [heq]
        ring
      · intro d hd
        match d with
        | 0 =>
          exfalso
          apply h0
          simpa using hd
        | d' + 1 =>
          have : len / (s * 2 * 2 ^ d') < 64 := by
            have : s * 2 * 2 ^ d' = s * 2 ^ (d' + 1) := by ring
            rwa [this]
          exact Nat.succ_le_succ (hmin d' this)

/-- On a nonnegative `progress_len`, the signed loop agrees with the
`Nat` loop: truncating division of nonnegatives is floor division. -/
theorem stepLoop32_ofNat (len : Nat) :
    ∀ fuel (s : Nat),
      stepLoop32 (len : Int) fuel (s : Int) = ((stepLoop len fuel s : Nat) : Int) := by
  intro fuel
  induction fuel with
  | zero => intro s; simp [stepLoop32, stepLoop]
  | succ fuel ih =>
    intro s
    simp only [stepLoop32, stepLoop]
    have htdiv : (len : Int).tdiv (s : Int) = ((len / s : Nat) : Int) := rfl
    rw [htdiv]
    by_cases h : len / s < 64
    · rw [if_pos (by exact_mod_cast h), if_pos h]
    · rw [if_neg (fun hh => h (by exact_mod_cast hh)), if_neg h]
      rw [show ((s : Int) * 2) = ((s * 2 : Nat) : Int) by push_cast; ring]
      exact ih (s * 2)

/-- Below the truncation threshold, the stored `progress_len` is the
true chunk count. -/
theorem progress_len32_small (nbytes : Nat) (h : totalChunks nbytes < 2 ^ 31) :
    progress_len32 nbytes = (totalChunks nbytes : Int) := by
  simp only [progress_len32, toInt32]
  have h1 : totalChunks nbytes % 2 ^ 32 = totalChunks nbytes :=
    Nat.mod_eq_of_lt (by omega)
  rw [h1, if_pos (by omega)]

/-- Below the truncation threshold, the program picks the same step as
the mathematical (Nat) loop with fuel 32. -/
theorem progress_step_eq_stepLoop (nbytes : Nat) (h : totalChunks nbytes < 2 ^ 31) :
    progress_step nbytes = stepLoop (totalChunks nbytes) 32 1 := by
  rw [progress_step, progress_len32_small nbytes h,
    show (1 : Int) = ((1 : Nat) : Int) from rfl, stepLoop32_ofNat]
  exact Int.toNat_natCast _

/-- The fixed fuel 32 is never exhausted: for every value a 32-bit
`progress_len` can take, the returned step satisfies the break condition
— the model leaves the loop through the break, exactly as the unbounded
C loop does. -/
theorem stepLoop32_exit (len32 : Int) (h2 : len32 < 2 ^ 31) :
    len32.tdiv (stepLoop32 len32 32 1) < 64 := by
  rcases lt_or_ge len32 0 with hneg | hnn
  · have h1 : len32.tdiv 1 < 64 := by rw [Int.tdiv_one]; omega
    rw [show (32 : Nat) = 31 + 1 from rfl]
    simp only [stepLoop32, if_pos h1]
    exact h1
  · obtain ⟨len, rfl⟩ : ∃ n : Nat, len32 = (n : Int) :=
      ⟨len32.toNat, (Int.toNat_of_nonneg hnn).symm⟩
    have hlt : len < 2 ^ 31 := by exact_mod_cast h2
    rw [show (1 : Int) = ((1 : Nat) : Int) from rfl, stepLoop32_ofNat]
    have hdiv : len / (1 * 2 ^ 32) < 64 := by
      rw [one_mul, Nat.div_eq_of_lt (by omega)]
      omega
    obtain ⟨hd, _⟩ := stepLoop_correct len 32 1 (by omega) hdiv
    rw [show ((len : Int)).tdiv ((stepLoop len 32 1 : Nat) : Int)
        = ((len / stepLoop len 32 1 : Nat) : Int) from rfl]
    exact_mod_cast hd

/-- Characterization of the chosen step when `progress_len` does not
truncate (fewer than 2^31 chunks): minimal power of two with
`⌊totalChunks / step⌋ < 64`. -/
theorem progress_step_spec (nbytes : Nat) (h : totalChunks nbytes < 2 ^ 31) :
    totalChunks nbytes / progress_step nbytes < 64 ∧
    ∃ e, progress_step nbytes = 2 ^ e ∧
      ∀ d, totalChunks nbytes / 2 ^ d < 64 → e ≤ d := by
  rw [progress_step_eq_stepLoop nbytes h]
  have hdiv : totalChunks nbytes / (1 * 2 ^ 32) < 64 := by
    rw [one_mul, Nat.div_eq_of_lt (by omega)]
    omega
  obtain ⟨hlt, e, heq, hmin⟩ := stepLoop_correct (totalChunks nbytes) 32 1 (by omega) hdiv
  refine ⟨hlt, e, by simpa using heq, ?_⟩
  intro d hd
  exact hmin d (by simpa using hd)

/-- Counting marks over `n` chunks is a difference of floor divisions. -/
theorem marksAfter_eq (step : Nat) :
    ∀ n count, marksAfter step count n = (count + n) / step - count / step := by
  intro n
  induction n with
  | zero => intro count; simp [marksAfter]
  | succ n ih =>
    intro count
    have hsucc : (count + 1) / step = count / step + if step ∣ count + 1 then 1 else 0 :=
      Nat.succ_div count step
    have hle2 : (count + 1) / step ≤ (count + 1 + n) / step :=
      Nat.div_le_div_right (by omega)
    have e2 : count + (n + 1) = count + 1 + n := by omega
    simp only [marksAfter, progress, ih (count + 1), e2]
    by_cases hdvd : step ∣ count + 1
    · have hmod0 : (count + 1) % step = 0 := Nat.dvd_iff_mod_eq_zero.mp hdvd
      simp only [hdvd, if_true] at hsucc
      set A := count / step with hA
      set B := (count + 1) / step with hB
      set C := (count + 1 + n) / step with hC
      simp [hmod0]
      omega
    · have hmod0 : (count + 1) % step ≠ 0 := fun h => hdvd (Nat.dvd_iff_mod_eq_zero.mpr h)
      simp only [hdvd, if_false] at hsucc
      set A := count / step with hA
      set B := (count + 1) / step with hB
      set C := (count + 1 + n) / step with hC
      simp [hmod0]
      omega

/-- Claim C1 (corrected), the amended statement: for every totalBytes
whose chunk count stays below 2^31 — so the 32-bit `int progress_len`
does not truncate — the chosen step is a power of two, it satisfies the
actual exit condition of the loop `⌊totalChunks / step⌋ < 64` (floor,
not ceiling), and it is the smallest power of two doing so.  Beyond that
threshold the truncated `progress_len` goes negative and the code
settles for step 1 (see `marks_overflow_counterexample`). -/
theorem progress_step_smallest_pow2_floor (nbytes : Nat)
    (h : totalChunks nbytes < 2 ^ 31) :
    (∃ e, progress_step nbytes = 2 ^ e) ∧
    totalChunks nbytes / progress_step nbytes < 64 ∧
    ∀ k, totalChunks nbytes / 2 ^ k < 64 → progress_step nbytes ≤ 2 ^ k := by
  obtain ⟨hlt, e, heq, hmin⟩ := progress_step_spec nbytes h
  refine ⟨⟨e, heq⟩, hlt, ?_⟩
  intro k hk
  rw [heq]
  exact Nat.pow_le_pow_right (by omega) (hmin k hk)

/-- Claim C1, counterexample to the claim as stated: for a 4161536-byte
image (127 chunks) the code picks step 2, and
`ceil(ceil(totalBytes/chunkSize)/step) = ceil(127/2) = 64`, which is not
`< 64` as the claim requires. -/
theorem progress_step_ceil_counterexample :
    ¬ (ceilDivNat (totalChunks 4161536) (progress_step 4161536) < 64) := by
  decide

/-- Witness for the amended C1 at a concrete size below the threshold. -/
theorem progress_step_smallest_pow2_floor_witness :
    totalChunks 4161536 < 2 ^ 31 ∧
    ((∃ e, progress_step 4161536 = 2 ^ e) ∧
     totalChunks 4161536 / progress_step 4161536 < 64 ∧
     ∀ k, totalChunks 4161536 / 2 ^ k < 64 → progress_step 4161536 ≤ 2 ^ k) :=
  ⟨by decide, progress_step_smallest_pow2_floor 4161536 (by decide)⟩

/-- Claim C2 (corrected), the amended statement: over a whole job of
`totalChunks` chunks, with the progress counter advanced once per chunk
starting from 0 and the step fixed at job start, fewer than 64 marks are
emitted — for every totalBytes whose chunk count stays below 2^31 (the
`int progress_len` truncation threshold).  For such jobs the Nat counter
is also exact for the `unsigned progress_count` of the program, which
wraps only beyond 2^32 chunks. -/
theorem marks_per_job_lt_64 (nbytes : Nat) (h : totalChunks nbytes < 2 ^ 31) :
    marksAfter (progress_step nbytes) 0 (totalChunks nbytes) < 64 := by
  obtain ⟨hlt, e, heq, _⟩ := progress_step_spec nbytes h
  rw [marksAfter_eq (progress_step nbytes) (totalChunks nbytes) 0]
  simpa using hlt

/-- Witness for the amended C2 at a concrete size below the threshold. -/
theorem marks_per_job_lt_64_witness :
    totalChunks 4161536 < 2 ^ 31 ∧
    marksAfter (progress_step 4161536) 0 (totalChunks 4161536) < 64 :=
  ⟨by decide, marks_per_job_lt_64 4161536 (by decide)⟩

/-- Claim C2, counterexample to the claim as stated: at
totalBytes = 2^46 the job has 2^31 chunks; the 32-bit `progress_len`
stores that count as -2^31, the signed loop exits immediately at step 1,
and the job emits 2^31 marks — vastly more than 64.  (2^31 chunks stay
below the 2^32 wrap of the `unsigned progress_count`, so the Nat mark
counter is still exact here.) -/
theorem marks_overflow_counterexample :
    ¬ (marksAfter (progress_step (2 ^ 46)) 0 (totalChunks (2 ^ 46)) < 64) := by
  have h1 : progress_step (2 ^ 46) = 1 := by decide
  have h2 : totalChunks (2 ^ 46) = 2 ^ 31 := by decide
  rw [h1, h2, marksAfter_eq]
  decide

/-- One uppercase hexadecimal digit, as printf prints it. -/
def hexDigitChar (d : Nat) : Char :=
  if d < 10 then Char.ofNat (48 + d) else Char.ofNat (55 + d)

/-- Digits of `n` in base 16, most significant first, as printf `%X`
produces them.  Structural fuel bounds the recursion; `fuel = n`
always suffices. -/
def hexCharsAux : Nat → Nat → List Char → List Char
  | 0, n, acc => hexDigitChar (n % 16) :: acc
  | fuel + 1, n, acc =>
    if n < 16 then hexDigitChar n :: acc
    else hexCharsAux fuel (n / 16) (hexDigitChar (n % 16) :: acc)

/-- Model of `printf("%X", n)`: minimal-width uppercase hex, `"0"` for 0. -/
def hexChars (n : Nat) : List Char := hexCharsAux n n []

/-- Model of `printf("%08X", n)`: zero-padded to width 8. -/
def hexPad8 (n : Nat) : List Char :=
  List.replicate (8 - (hexChars n).length) '0' ++ hexChars n

/-- The offset rendering of `print_mismatch` (sdwriter.c:511-516):
offsets below 2^32 print as one `%X` group, larger offsets as
`%X` of the high 32 bits followed by `%08X` of the low 32 bits. -/
def renderOffsetHex (offset : Nat) : List Char :=
  if offset / 2 ^ 32 = 0 then hexChars (offset % 2 ^ 32)
  else hexChars (offset / 2 ^ 32) ++ hexPad8 (offset % 2 ^ 32)

/-- Numeric value of an uppercase hex digit character. -/
def hexCharVal (c : Char) : Nat :=
  if c.toNat < 58 then c.toNat - 48 else c.toNat - 55

/-- Value denoted by a most-significant-first hex digit string. -/
def hexVal (ds : List Char) : Nat :=
  ds.foldl (fun a c => a * 16 + hexCharVal c) 0

/-- The scan loop of `print_mismatch` (sdwriter.c:506-520): find the first
index `< rem` (starting at `i`) where the two buffers differ; the C code
then reports `(offset + i, expected, byte)` with `expected` drawn from the
first buffer and `byte` from the second. -/
def pmFind (valid invalid : List Nat) : Nat → Nat → Option (Nat × Nat × Nat)
  | _, 0 => none
  | i, rem + 1 =>
    if invalid.getD i 0 ≠ valid.getD i 0 then
      some (i, valid.getD i 0, invalid.getD i 0)
    else pmFind valid invalid (i + 1) rem

/-- Model of `print_mismatch(valid, invalid, nbytes, offset)` (sdwriter.c:500-521)
as a pure computation of the report it prints: `none` when the buffers
agree on the first `nbytes` bytes, otherwise
`some (absolute offset, expected byte, actual byte)` of the first
difference. -/
def print_mismatch (valid invalid : List Nat) (nbytes offset : Nat) :
    Option (Nat × Nat × Nat) :=
  (pmFind valid invalid 0 nbytes).map fun r => (offset + r.1, r.2.1, r.2.2)

theorem hexCharVal_hexDigitChar : ∀ d, d < 16 → hexCharVal (hexDigitChar d) = d := by
  decide

theorem hexCharsAux_append (fuel : Nat) :
    ∀ n acc, hexCharsAux fuel n acc = hexCharsAux fuel n [] ++ acc := by
  induction fuel with
  | zero => intro n acc; simp [hexCharsAux]
  | succ fuel ih =>
    intro n acc
    by_cases h : n < 16
    · simp [hexCharsAux, h]
    · simp only [hexCharsAux, if_neg h]
      rw [ih (n / 16) (hexDigitChar (n % 16) :: acc), ih (n / 16) [hexDigitChar (n % 16)]]
      simp

theorem hexVal_cons (c : Char) (ds : List Char) :
    hexVal (c :: ds) = hexCharVal c * 16 ^ ds.length + hexVal ds := by
  have key : ∀ (l : List Char) (a : Nat),
      l.foldl (fun a c => a * 16 + hexCharVal c) a
        = a * 16 ^ l.length + l.foldl (fun a c => a * 16 + hexCharVal c) 0 := by
    intro l
    induction l with
    | nil => intro a; simp
    | cons x xs ih =>
      intro a
      simp only [List.foldl_cons, List.length_cons]
      rw [ih (a * 16 + hexCharVal x), ih (0 * 16 + hexCharVal x)]
      ring
  simp only [hexVal, List.foldl_cons]
  rw [key ds (0 * 16 + hexCharVal c)]
  ring

theorem hexVal_append (a b : List Char) :
    hexVal (a ++ b) = hexVal a * 16 ^ b.length + hexVal b := by
  induction a with
  | nil => simp [hexVal]
  | cons x xs ih =>
    simp only [List.cons_append, hexVal_cons, ih, List.length_append]
    ring

theorem hexVal_hexCharsAux (fuel : Nat) :
    ∀ n, n ≤ fuel → hexVal (hexCharsAux fuel n []) = n := by
  induction fuel with
  | zero =>
    intro n hn
    have : n = 0 := by omega
    subst this
    simp [hexCharsAux, hexVal, hexCharVal, hexDigitChar]
  | succ fuel ih =>
    intro n hn
    by_cases h : n < 16
    · simp only [hexCharsAux, if_pos h]
      simpa [hexVal] using hexCharVal_hexDigitChar n h
    · simp only [hexCharsAux, if_neg h]
      rw [hexCharsAux_append, hexVal_append]
      have h16 : n / 16 ≤ fuel := by omega
      rw [ih (n / 16) h16]
      have hd : hexCharVal (hexDigitChar (n % 16)) = n % 16 :=
        hexCharVal_hexDigitChar (n % 16) (Nat.mod_lt n (by omega))
      simp [hexVal, hd]
      omega

theorem hexVal_hexChars (n : Nat) : hexVal (hexChars n) = n :=
  hexVal_hexCharsAux n n (Nat.le_refl n)

theorem hexCharsAux_length (fuel : Nat) :
    ∀ n k acc, n ≤ fuel → n < 16 ^ k → 1 ≤ k →
      (hexCharsAux fuel n acc).length ≤ k + acc.length := by
  induction fuel with
  | zero =>
    intro n k acc _ _ hk
    simp [hexCharsAux]
    omega
  | succ fuel ih =>
    intro n k acc hn hnk hk
    by_cases h : n < 16
    · simp [hexCharsAux, h]
      omega
    · simp only [hexCharsAux, if_neg h]
      obtain ⟨k', rfl⟩ : ∃ k', k = k' + 1 := ⟨k - 1, by omega⟩
      have hk' : 1 ≤ k' := by
        by_contra hc
        have : k' = 0 := by omega
        subst this
        simp [pow_succ] at hnk
        omega
      have hrec := ih (n / 16) k' (hexDigitChar (n % 16) :: acc) (by omega)
        (by
          rw [Nat.div_lt_iff_lt_mul (by omega : (0:Nat) < 16)]
          calc n < 16 ^ (k' + 1) := hnk
          _ = 16 ^ k' * 16 := by ring) hk'
      simp at hrec ⊢
      omega

theorem hexChars_length_le_8 (n : Nat) (h : n < 2 ^ 32) : (hexChars n).length ≤ 8 := by
  have : n < 16 ^ 8 := by
    have e : (16:Nat) ^ 8 = 2 ^ 32 := by norm_num
    omega
  simpa using hexCharsAux_length n n 8 [] (Nat.le_refl n) this (by omega)

theorem hexVal_replicate_zero (m : Nat) : hexVal (List.replicate m '0') = 0 := by
  induction m with
  | zero => simp [hexVal]
  | succ m ih =>
    rw [List.replicate_succ, hexVal_cons, ih]
    simp [hexCharVal]

theorem hexVal_hexPad8 (n : Nat) : hexVal (hexPad8 n) = n := by
  rw [hexPad8, hexVal_append, hexVal_replicate_zero, hexVal_hexChars]
  simp

theorem hexPad8_length (n : Nat) (h : n < 2 ^ 32) : (hexPad8 n).length = 8 := by
  have := hexChars_length_le_8 n h
  simp [hexPad8]
  omega

/-- The rendered offset, read back as hexadecimal, is the offset: the
high/low split loses nothing. -/
theorem hexVal_renderOffsetHex (off : Nat) : hexVal (renderOffsetHex off) = off := by
  rw [renderOffsetHex]
  by_cases h : off / 2 ^ 32 = 0
  · rw [if_pos h, hexVal_hexChars]
    have : off < 2 ^ 32 := by
      by_contra hc
      have : 2 ^ 32 ≤ off := by omega
      have := Nat.div_le_div_right (c := 2 ^ 32) this
      simp at this
      omega
    exact Nat.mod_eq_of_lt this
  · rw [if_neg h, hexVal_append, hexVal_hexChars, hexVal_hexPad8,
      hexPad8_length (off % 2 ^ 32) (Nat.mod_lt off (by norm_num))]
    have e : (16:Nat) ^ 8 = 2 ^ 32 := by norm_num
    rw [e, Nat.mul_comm]
    exact Nat.div_add_mod off (2 ^ 32)

theorem pmFind_first (valid invalid : List Nat) :
    ∀ k i rem, k < rem →
      (∀ d, d < k → valid.getD (i + d) 0 = invalid.getD (i + d) 0) →
      invalid.getD (i + k) 0 ≠ valid.getD (i + k) 0 →
      pmFind valid invalid i rem
        = some (i + k, valid.getD (i + k) 0, invalid.getD (i + k) 0) := by
  intro k
  induction k with
  | zero =>
    intro i rem hrem _ hdiff
    obtain ⟨rem', rfl⟩ : ∃ r, rem = r + 1 := ⟨rem - 1, by omega⟩
    simp only [Nat.add_zero] at hdiff ⊢
    simp only [pmFind]
    rw [if_pos hdiff]
  | succ k ih =>
    intro i rem hrem hagree hdiff
    obtain ⟨rem', rfl⟩ : ∃ r, rem = r + 1 := ⟨rem - 1, by omega⟩
    have heq : valid.getD i 0 = invalid.getD i 0 := by
      have := hagree 0 (by omega)
      simpa using this
    have hstep : ¬ invalid.getD i 0 ≠ valid.getD i 0 := by omega
    simp only [pmFind, if_neg hstep]
    have hagree' : ∀ d, d < k → valid.getD (i + 1 + d) 0 = invalid.getD (i + 1 + d) 0 := by
      intro d hd
      have := hagree (d + 1) (by omega)
      rw [show i + (d + 1) = i + 1 + d by omega] at this
      exact this
    have hdiff' : invalid.getD (i + 1 + k) 0 ≠ valid.getD (i + 1 + k) 0 := by
      rw [show i + 1 + k = i + (k + 1) by omega]
      exact hdiff
    have := ih (i + 1) rem' (by omega) hagree' hdiff'
    rw [this]
    rw [show i + 1 + k = i + (k + 1) by omega]

/-- Claim C4: for buffers agreeing on the first `j` bytes and differing at
byte `j` of a chunk that starts at `chunkIdx * chunkSize`, the reporter
computes the absolute offset `chunkIdx * chunkSize + j` with the expected
byte from the reference buffer and the actual byte from the comparison
buffer; the rendered offset decodes back to the same value, and offsets of
at least 4 GiB render as the high 32-bit hex group followed by the
zero-padded low 32-bit group. -/
theorem mismatch_report_correct (valid invalid : List Nat) (nbytes j chunkIdx : Nat)
    (hj : j < nbytes)
    (hagree : ∀ d, d < j → valid.getD d 0 = invalid.getD d 0)
    (hdiff : invalid.getD j 0 ≠ valid.getD j 0) :
    print_mismatch valid invalid nbytes (chunkIdx * chunkSize)
        = some (chunkIdx * chunkSize + j, valid.getD j 0, invalid.getD j 0) ∧
    hexVal (renderOffsetHex (chunkIdx * chunkSize + j)) = chunkIdx * chunkSize + j ∧
    (2 ^ 32 ≤ chunkIdx * chunkSize + j →
      renderOffsetHex (chunkIdx * chunkSize + j)
        = hexChars ((chunkIdx * chunkSize + j) / 2 ^ 32)
          ++ hexPad8 ((chunkIdx * chunkSize + j) % 2 ^ 32)) := by
  refine ⟨?_, hexVal_renderOffsetHex _, ?_⟩
  · have hfind := pmFind_first valid invalid j 0 nbytes hj
      (by intro d hd; simpa using hagree d hd) (by simpa using hdiff)
    simp only [Nat.zero_add] at hfind
    simp [print_mismatch, hfind]
  · intro hbig
    rw [renderOffsetHex, if_neg]
    intro hzero
    have : chunkIdx * chunkSize + j < 2 ^ 32 := by
      by_contra hc
      have h1 : 1 ≤ (chunkIdx * chunkSize + j) / 2 ^ 32 :=
        (Nat.one_le_div_iff (by norm_num)).mpr (by omega)
      omega
    omega

/-- Witness for C4 at a concrete input whose absolute offset is exactly
2^32 (buffers differ at the very first byte). -/
theorem mismatch_report_correct_witness :
    print_mismatch [5] [9] 1 (131072 * chunkSize)
        = some (131072 * chunkSize + 0, 5, 9) ∧
    hexVal (renderOffsetHex (131072 * chunkSize + 0)) = 131072 * chunkSize + 0 ∧
    (2 ^ 32 ≤ 131072 * chunkSize + 0 →
      renderOffsetHex (131072 * chunkSize + 0)
        = hexChars ((131072 * chunkSize + 0) / 2 ^ 32)
          ++ hexPad8 ((131072 * chunkSize + 0) % 2 ^ 32)) := by
  have h := mismatch_report_correct [5] [9] 1 0 131072 (by omega)
    (by intro d hd; omega) (by decide)
  simpa using h

/-- Observable I/O events of one copy/verify job, in program order.
Payload lists carry the transferred bytes (their length is the `n` of the
corresponding C call). -/
inductive Event where
  | srcRead (bytes : List Nat)
  | devWrite (bytes : List Nat)
  | devRead (bytes : List Nat)
  | flush
  | mark
  | closeSrc
  | closeDest
deriving DecidableEq

/-- How a job ends: `done` for the success path, the others for the
`quit(0)` paths inside the loops. -/
inductive Outcome where
  | done
  | srcReadError
  | devWriteError
  | devReadError
  | dataError (offset expected actual : Nat)
  | dataErrorUnknown
deriving DecidableEq

/-- Model of `read(fd, buf, n)` against a stream with `rem` bytes left: exact
transfer or failure (`read(...) != n` in the C code).  Returns the bytes
read and the rest of the stream. -/
def fileRead (rem : List Nat) (n : Nat) : Option (List Nat × List Nat) :=
  if n ≤ rem.length then some (rem.take n, rem.drop n) else none

/-- The per-iteration transfer size (sdwriter.c:656-658, and identically
684-686 in verify mode): `n = nbytes - count` stores a 64-bit `off_t`
difference into the 32-bit `int n`, truncating; the guard
`if (n > sizeof(buf)) n = sizeof(buf)` compares `n` against the 64-bit
unsigned `size_t`, so a negative `n` converts to a huge unsigned value
and is clamped to `sizeof(buf)` as well.  For `remaining < 2^32` this
equals `min(chunkSize, remaining)` (`chunkN_small`); for larger
remainders it diverges — the 4 GiB truncation defect
(`chunk_size_truncation_counterexample`). -/
def chunkN (remaining : Nat) : Nat :=
  let n0 : Int := toInt32 remaining
  if n0 < 0 then chunkSize
  else if (chunkSize : Int) < n0 then chunkSize
  else n0.toNat

/-- Below 4 GiB remaining, the truncated size is the intended minimum. -/
theorem chunkN_small (r : Nat) (h : r < 2 ^ 32) :
    chunkN r = min chunkSize r := by
  simp only [chunkN, toInt32, chunkSize]
  split_ifs <;> omega

/-- The write-mode loop of `write_image` (sdwriter.c:654-671):
`for (count=0; count<nbytes; count+=sizeof(buf))`, with the chunk size
`n = chunkN remaining` computed through the 32-bit `int n` of the source;
reads `n` source bytes, writes them to the device (failing when the write
would pass the capacity of the device), and calls `progress`, flushing
whenever a mark was emitted.  `remaining` is `nbytes - count` (exact, as
both are 64-bit `off_t`); the structural `fuel` only bounds the recursion
and is chosen `≥ remaining` at the call site (the loop consumes at least
one unit of `remaining` per iteration, since `count` advances by
`sizeof(buf)` even when `n` is smaller).  Returns
(events, outcome, device contents). -/
def writeLoop (step cap : Nat) :
    Nat → List Nat → List Nat → Nat → Nat → List Event × Outcome × List Nat
  | 0, _, written, _, _ => ([], .done, written)
  | fuel + 1, srcRem, written, pcount, remaining =>
    if remaining = 0 then ([], .done, written)
    else
      let n := chunkN remaining
      match fileRead srcRem n with
      | none => ([], .srcReadError, written)
      | some (chunk, srcRest) =>
        if written.length + n ≤ cap then
          let pr := progress step pcount
          let rest := writeLoop step cap fuel srcRest (written ++ chunk) pr.1
            (remaining - chunkSize)
          (Event.srcRead chunk :: Event.devWrite chunk ::
            ((if pr.2 then [Event.mark, Event.flush] else []) ++ rest.1),
           rest.2.1, rest.2.2)
        else ([Event.srcRead chunk], .devWriteError, written)

/-- The verify-mode loop of `write_image` (sdwriter.c:682-703), embedded
faithfully, including its defects: the chunk size `n` goes through the
32-bit `int` (`chunkN`), the destination chunk is read into the same
buffer `buf` that held the source chunk (overwriting it), and `memcmp`
compares that destination chunk against `buf2`, a stack buffer that is
never written — modelled by the arbitrary function `buf2`.  `count`
tracks the source-file position minus `n` (the `lseek(...) - n` offset
passed to `print_mismatch`), which advances by `n`; the loop variable
`remaining` advances by `sizeof(buf)` like the C `count`. -/
def verifyLoop (step : Nat) (buf2 : Nat → Nat) :
    Nat → List Nat → List Nat → Nat → Nat → Nat → List Event × Outcome
  | 0, _, _, _, _, _ => ([], .done)
  | fuel + 1, srcRem, destRem, pcount, count, remaining =>
    if remaining = 0 then ([], .done)
    else
      let n := chunkN remaining
      match fileRead srcRem n with
      | none => ([], .srcReadError)
      | some (chunk, srcRest) =>
        match fileRead destRem n with
        | none => ([Event.srcRead chunk], .devReadError)
        | some (dchunk, destRest) =>
          let buf2bytes := (List.range n).map buf2
          if dchunk = buf2bytes then
            let pr := progress step pcount
            let rest := verifyLoop step buf2 fuel srcRest destRest pr.1 (count + n)
              (remaining - chunkSize)
            (Event.srcRead chunk :: Event.devRead dchunk ::
              ((if pr.2 then [Event.mark] else []) ++ rest.1),
             rest.2)
          else
            match print_mismatch dchunk buf2bytes n count with
            | some r => ([Event.srcRead chunk, Event.devRead dchunk],
                .dataError r.1 r.2.1 r.2.2)
            | none => ([Event.srcRead chunk, Event.devRead dchunk], .dataErrorUnknown)

/-- Model of `write_image` in write mode (sdwriter.c:616-710, `verify_only = 0`),
from the open handles onward: `statSize` is `st.st_size` from `fstat`,
`content` the bytes the source file actually yields, `cap` the device
capacity.  On loop success the code flushes once more, then closes both
handles; every failure path leaves via `quit(0)` without closing. -/
def write_image_write (statSize : Nat) (content : List Nat) (cap : Nat) :
    List Event × Outcome × List Nat :=
  let step := progress_step statSize
  let r := writeLoop step cap statSize content [] 0 statSize
  match r.2.1 with
  | .done => (r.1 ++ [Event.flush, Event.closeSrc, Event.closeDest], .done, r.2.2)
  | o => (r.1, o, r.2.2)

/-- Model of `write_image` in verify mode (`verify_only != 0`): same framing, no
final flush; both handles are closed only when the loop succeeds. -/
def write_image_verify (statSize : Nat) (content destContent : List Nat)
    (buf2 : Nat → Nat) : List Event × Outcome :=
  let step := progress_step statSize
  let r := verifyLoop step buf2 statSize content destContent 0 0 statSize
  match r.2 with
  | .done => (r.1 ++ [Event.closeSrc, Event.closeDest], .done)
  | o => (r.1, o)

/-- Is this event a handle-close? -/
def isClose : Event → Bool
  | .closeSrc => true
  | .closeDest => true
  | _ => false

theorem writeLoop_no_close (step cap : Nat) :
    ∀ fuel srcRem written pcount remaining,
      ∀ x ∈ (writeLoop step cap fuel srcRem written pcount remaining).1,
        isClose x = false := by
  intro fuel
  induction fuel with
  | zero => intro srcRem written pcount remaining x hx; simp [writeLoop] at hx
  | succ fuel ih =>
    intro srcRem written pcount remaining x hx
    simp only [writeLoop] at hx
    by_cases h0 : remaining = 0
    · simp [h0] at hx
    · rw [if_neg h0] at hx
      rcases hf : fileRead srcRem (chunkN remaining)
        with _ | ⟨chunk, srcRest⟩
      · rw [hf] at hx; simp at hx
      · rw [hf] at hx
        dsimp only at hx
        by_cases hcap : written.length + chunkN remaining ≤ cap
        · rw [if_pos hcap] at hx
          simp only [List.mem_cons, List.mem_append] at hx
          rcases hx with rfl | rfl | hx
          · rfl
          · rfl
          · rcases hx with hx | hx
            · cases hb : (progress step pcount).2 <;> rw [hb] at hx <;> simp at hx
              rcases hx with rfl | rfl <;> rfl
            · exact ih _ _ _ _ x hx
        · rw [if_neg hcap] at hx
          simp at hx
          subst hx
          rfl

theorem verifyLoop_no_close (step : Nat) (buf2 : Nat → Nat) :
    ∀ fuel srcRem destRem pcount count remaining,
      ∀ x ∈ (verifyLoop step buf2 fuel srcRem destRem pcount count remaining).1,
        isClose x = false := by
  intro fuel
  induction fuel with
  | zero => intro srcRem destRem pcount count remaining x hx; simp [verifyLoop] at hx
  | succ fuel ih =>
    intro srcRem destRem pcount count remaining x hx
    simp only [verifyLoop] at hx
    by_cases h0 : remaining = 0
    · simp [h0] at hx
    · rw [if_neg h0] at hx
      rcases hf : fileRead srcRem (chunkN remaining)
        with _ | ⟨chunk, srcRest⟩
      · rw [hf] at hx; simp at hx
      · rw [hf] at hx
        rcases hg : fileRead destRem (chunkN remaining)
          with _ | ⟨dchunk, destRest⟩
        · rw [hg] at hx
          simp at hx
          subst hx
          rfl
        · rw [hg] at hx
          dsimp only at hx
          by_cases hmem : dchunk = (List.range (chunkN remaining)).map buf2
          · rw [if_pos hmem] at hx
            simp only [List.mem_cons, List.mem_append] at hx
            rcases hx with rfl | rfl | hx
            · rfl
            · rfl
            · rcases hx with hx | hx
              · cases hb : (progress step pcount).2 <;> rw [hb] at hx <;> simp at hx
                subst hx
                rfl
              · exact ih _ _ _ _ _ x hx
          · rw [if_neg hmem] at hx
            rcases hp : print_mismatch dchunk
                ((List.range (chunkN remaining)).map buf2) (chunkN remaining) count
              with _ | r
            · rw [hp] at hx
              simp at hx
              rcases hx with rfl | rfl <;> rfl
            · rw [hp] at hx
              simp at hx
              rcases hx with rfl | rfl <;> rfl

/-- Claim C7 (corrected), the amended statement: on the success path of
either mode both handles are closed exactly once; on every failure path
(short transfer, verify mismatch) the job ends with zero closes — the
process exits via `quit(0)` without releasing the handles. -/
theorem close_exactly_once (statSize cap : Nat) (content destContent : List Nat)
    (buf2 : Nat → Nat) :
    ((write_image_write statSize content cap).2.1 = Outcome.done →
      (write_image_write statSize content cap).1.count Event.closeSrc = 1 ∧
      (write_image_write statSize content cap).1.count Event.closeDest = 1) ∧
    ((write_image_write statSize content cap).2.1 ≠ Outcome.done →
      (write_image_write statSize content cap).1.count Event.closeSrc = 0 ∧
      (write_image_write statSize content cap).1.count Event.closeDest = 0) ∧
    ((write_image_verify statSize content destContent buf2).2 = Outcome.done →
      (write_image_verify statSize content destContent buf2).1.count Event.closeSrc = 1 ∧
      (write_image_verify statSize content destContent buf2).1.count Event.closeDest = 1) ∧
    ((write_image_verify statSize content destContent buf2).2 ≠ Outcome.done →
      (write_image_verify statSize content destContent buf2).1.count Event.closeSrc = 0 ∧
      (write_image_verify statSize content destContent buf2).1.count Event.closeDest = 0) := by
  have hwS : (writeLoop (progress_step statSize) cap statSize content [] 0
      statSize).1.count Event.closeSrc = 0 :=
    List.count_eq_zero.mpr fun hm => by
      have := writeLoop_no_close (progress_step statSize) cap statSize content [] 0
        statSize _ hm
      simp [isClose] at this
  have hwD : (writeLoop (progress_step statSize) cap statSize content [] 0
      statSize).1.count Event.closeDest = 0 :=
    List.count_eq_zero.mpr fun hm => by
      have := writeLoop_no_close (progress_step statSize) cap statSize content [] 0
        statSize _ hm
      simp [isClose] at this
  have hvS : (verifyLoop (progress_step statSize) buf2 statSize content destContent 0 0
      statSize).1.count Event.closeSrc = 0 :=
    List.count_eq_zero.mpr fun hm => by
      have := verifyLoop_no_close (progress_step statSize) buf2 statSize content destContent
        0 0 statSize _ hm
      simp [isClose] at this
  have hvD : (verifyLoop (progress_step statSize) buf2 statSize content destContent 0 0
      statSize).1.count Event.closeDest = 0 :=
    List.count_eq_zero.mpr fun hm => by
      have := verifyLoop_no_close (progress_step statSize) buf2 statSize content destContent
        0 0 statSize _ hm
      simp [isClose] at this
  refine ⟨?_, ?_, ?_, ?_⟩
  · intro hdone
    rcases ho : (writeLoop (progress_step statSize) cap statSize content [] 0
        statSize).2.1 <;>
      simp only [write_image_write, ho] at hdone ⊢ <;>
      first
        | (constructor <;> rw [List.count_append] <;> first
            | (rw [hwS]; decide)
            | (rw [hwD]; decide))
        | exact absurd hdone (by simp)
  · intro hfail
    rcases ho : (writeLoop (progress_step statSize) cap statSize content [] 0
        statSize).2.1 <;>
      simp only [write_image_write, ho] at hfail ⊢ <;>
      first
        | exact absurd rfl hfail
        | exact ⟨hwS, hwD⟩
  · intro hdone
    rcases ho : (verifyLoop (progress_step statSize) buf2 statSize content destContent 0 0
        statSize).2 <;>
      simp only [write_image_verify, ho] at hdone ⊢ <;>
      first
        | (constructor <;> rw [List.count_append] <;> first
            | (rw [hvS]; decide)
            | (rw [hvD]; decide))
        | exact absurd hdone (by simp)
  · intro hfail
    rcases ho : (verifyLoop (progress_step statSize) buf2 statSize content destContent 0 0
        statSize).2 <;>
      simp only [write_image_verify, ho] at hfail ⊢ <;>
      first
        | exact absurd rfl hfail
        | exact ⟨hvS, hvD⟩

/-- Witness for the amended C7 on a successful zero-byte write job. -/
theorem close_exactly_once_witness :
    (write_image_write 0 [] 0).1.count Event.closeSrc = 1 ∧
    (write_image_write 0 [] 0).1.count Event.closeDest = 1 :=
  (close_exactly_once 0 0 [] [] (fun _ => 0)).1 rfl

/-- Claim C7, counterexample to the claim as stated: a write job whose
source stats at 1 byte but yields none (a transfer error on the very
first chunk) ends with the destination handle never closed. -/
theorem close_on_error_counterexample :
    (write_image_write 1 [] 32768).2.1 = Outcome.srcReadError ∧
    ¬ ((write_image_write 1 [] 32768).1.count Event.closeDest = 1) := by
  exact ⟨rfl, by decide⟩

/-- Claim C3 (code bug): the verify loop never compares source bytes with
destination bytes.  With source and destination both `[65]` and the
uninitialized compare buffer reading as zeros, a mismatch is reported
(`Error at address 0x0: file=0x41, disk=0x00`); with source `[1]` and
destination `[0]` — genuinely different data — verification succeeds. -/
theorem verify_reports_against_uninitialized :
    (write_image_verify 1 [65] [65] (fun _ => 0)).2 = Outcome.dataError 0 65 0 ∧
    (write_image_verify 1 [1] [0] (fun _ => 0)).2 = Outcome.done := by
  exact ⟨rfl, rfl⟩

/-- Claim C9: a zero-length source completes both modes successfully with
zero chunk events and zero marks, and write mode still performs its one
final unconditional flush. -/
theorem zero_length_job (cap : Nat) (destContent : List Nat) (buf2 : Nat → Nat) :
    write_image_write 0 [] cap
        = ([Event.flush, Event.closeSrc, Event.closeDest], Outcome.done, []) ∧
    write_image_verify 0 [] destContent buf2
        = ([Event.closeSrc, Event.closeDest], Outcome.done) ∧
    (write_image_write 0 [] cap).1.count Event.mark = 0 ∧
    (write_image_write 0 [] cap).1.count Event.flush = 1 := by
  exact ⟨rfl, rfl, rfl, rfl⟩

/-- Per the spec (§4.4, Write mode), the events of chunk index `i`:
`n = min(chunkSize, totalBytes - i * chunkSize)` bytes are read from the
source and written to the destination, and when the chunk lands on the
flush cadence a mark is emitted and a flush issued. -/
def specWriteChunk (content : List Nat) (nbytes step i : Nat) : List Event :=
  let n := min chunkSize (nbytes - i * chunkSize)
  let chunk := (content.drop (i * chunkSize)).take n
  [Event.srcRead chunk, Event.devWrite chunk] ++
    (if (i + 1) % step == 0 then [Event.mark, Event.flush] else [])

/-- Per the spec (§4.4, Write mode): all chunk indices in order, then one
unconditional final flush, then the job cleanup (source close, device
close). -/
def specWriteTrace (content : List Nat) (nbytes step : Nat) : List Event :=
  ((List.range (totalChunks nbytes)).flatMap (specWriteChunk content nbytes step)) ++
    [Event.flush, Event.closeSrc, Event.closeDest]

/-- A loop invocation with zero bytes remaining exits at once. -/
theorem writeLoop_zero (step cap fuel : Nat) (srcRem written : List Nat) (pcount : Nat) :
    writeLoop step cap fuel srcRem written pcount 0 = ([], Outcome.done, written) := by
  cases fuel <;> simp [writeLoop]

/-- The write loop, run from chunk index `i` on an adequate source and a
device with sufficient capacity, succeeds and produces exactly the
spec-mandated events of chunks `i, i+1, …`, leaving the remaining source
bytes appended to the device.  Requires `nbytes < 2^32`: below 4 GiB the
truncated `int n` equals the intended minimum (`chunkN_small`); at and
beyond 4 GiB the program transfers wrong chunk sizes
(`chunk_size_truncation_counterexample`). -/
theorem writeLoop_done_trace (step cap nbytes : Nat) (content : List Nat)
    (hlen : content.length = nbytes) (hsize : nbytes < 2 ^ 32) :
    ∀ fuel i written, nbytes - i * chunkSize ≤ fuel →
      written.length + (nbytes - i * chunkSize) ≤ cap →
      writeLoop step cap fuel (content.drop (i * chunkSize)) written i
          (nbytes - i * chunkSize)
        = ((List.range' i (ceilDivNat (nbytes - i * chunkSize) chunkSize)).flatMap
             (specWriteChunk content nbytes step),
           Outcome.done,
           written ++ content.drop (i * chunkSize)) := by
  intro fuel
  induction fuel with
  | zero =>
    intro i written hfuel _
    have hrem : nbytes - i * chunkSize = 0 := by omega
    have hdrop : content.drop (i * chunkSize) = [] := by
      apply List.eq_nil_of_length_eq_zero
      rw [List.length_drop, hlen, hrem]
    rw [hrem, hdrop, writeLoop_zero]
    have hc0 : ceilDivNat 0 chunkSize = 0 := by decide
    simp [hc0]
  | succ fuel ih =>
    intro i written hfuel hcap
    by_cases h0 : nbytes - i * chunkSize = 0
    · have hdrop : content.drop (i * chunkSize) = [] := by
        apply List.eq_nil_of_length_eq_zero
        rw [List.length_drop, hlen, h0]
      rw [h0, hdrop, writeLoop_zero]
      have hc0 : ceilDivNat 0 chunkSize = 0 := by decide
      simp [hc0]
    · have hcs : (0:Nat) < chunkSize := by decide
      obtain ⟨n, hn⟩ : ∃ m, chunkN (nbytes - i * chunkSize) = m := ⟨_, rfl⟩
      have hn1 : n = min chunkSize (nbytes - i * chunkSize) := by
        rw [← hn, chunkN_small _ (by omega)]
      have hsrclen : (content.drop (i * chunkSize)).length = nbytes - i * chunkSize := by
        rw [List.length_drop, hlen]
      simp only [writeLoop, if_neg h0]
      rw [hn]
      have hread : fileRead (content.drop (i * chunkSize)) n
          = some ((content.drop (i * chunkSize)).take n,
                  (content.drop (i * chunkSize)).drop n) := by
        simp only [fileRead]
        rw [if_pos]
        rw [hsrclen]
        omega
      rw [hread]
      dsimp only
      have hcapn : (written ).length + n ≤ cap := by omega
      rw [if_pos hcapn]
      have htake : ((content.drop (i * chunkSize)).take n).length = n := by
        rw [List.length_take]
        omega
      have hsucc : (i + 1) * chunkSize = i * chunkSize + chunkSize := by ring
      have hrem2 : nbytes - i * chunkSize - chunkSize = nbytes - (i + 1) * chunkSize := by
        rw [hsucc]
        omega
      have hdrop2 : (content.drop (i * chunkSize)).drop n
          = content.drop ((i + 1) * chunkSize) := by
        by_cases hbig : chunkSize < nbytes - i * chunkSize
        · have hnc : n = chunkSize := by omega
          rw [List.drop_drop, hnc, hsucc, Nat.add_comm]
        · have hnr : n = nbytes - i * chunkSize := by omega
          have e1 : ((content.drop (i * chunkSize)).drop n).length = 0 := by
            rw [List.length_drop, hsrclen]
            omega
          have e2 : (content.drop ((i + 1) * chunkSize)).length = 0 := by
            rw [List.length_drop, hlen, hsucc]
            omega
          rw [List.eq_nil_of_length_eq_zero e1, List.eq_nil_of_length_eq_zero e2]
      rw [hdrop2, hrem2]
      have hfuel2 : nbytes - (i + 1) * chunkSize ≤ fuel := by
        rw [← hrem2]
        omega
      have hcap2 : (written ++ (content.drop (i * chunkSize)).take n).length
          + (nbytes - (i + 1) * chunkSize) ≤ cap := by
        rw [List.length_append, htake, ← hrem2]
        omega
      have hp1 : (progress step i).1 = i + 1 := rfl
      rw [hp1, ih (i + 1) (written ++ (content.drop (i * chunkSize)).take n) hfuel2 hcap2]
      have hcount : ceilDivNat (nbytes - i * chunkSize) chunkSize
          = ceilDivNat (nbytes - (i + 1) * chunkSize) chunkSize + 1 := by
        rw [hsucc]
        have h0c := h0
        simp only [ceilDivNat, chunkSize] at h0c ⊢
        omega
      rw [hcount, List.range'_succ, List.flatMap_cons]
      simp only [progress, specWriteChunk, ← hn1]
      rw [List.append_assoc, ← hdrop2, List.take_append_drop]
      simp [List.append_assoc]

/-- Claim C8 (corrected), the amended statement: in write mode, for every
image smaller than 4 GiB (`nbytes < 2^32`, where the 32-bit `int n` of
the source cannot truncate), on an adequate source (`content` has
exactly the stat-reported `nbytes` bytes) and a destination of
sufficient capacity, `write_image` produces exactly the spec-mandated
trace — for chunk index `i`, `n = min(chunkSize, nbytes - i * chunkSize)`
bytes are read then written, a mark+flush lands on every `step`-th chunk,
and one final unconditional flush precedes the cleanup — and the device
ends up holding exactly the source bytes.  At 4 GiB and beyond the
truncated `n` breaks the per-chunk size
(`chunk_size_truncation_counterexample`). -/
theorem write_mode_trace (nbytes cap : Nat) (content : List Nat)
    (hlen : content.length = nbytes) (hcap : nbytes ≤ cap) (hsize : nbytes < 2 ^ 32) :
    write_image_write nbytes content cap
      = (specWriteTrace content nbytes (progress_step nbytes), Outcome.done, content) := by
  have h := writeLoop_done_trace (progress_step nbytes) cap nbytes content hlen hsize
    nbytes 0 [] (by simp) (by simp; omega)
  simp only [Nat.zero_mul, Nat.sub_zero, List.drop_zero, List.nil_append] at h
  simp only [write_image_write, h]
  simp [specWriteTrace, totalChunks, List.range_eq_range']

/-- Witness for the amended C8: a one-byte job (single chunk, step 1: the
chunk lands on the cadence, then the final flush follows). -/
theorem write_mode_trace_witness :
    write_image_write 1 [7] 1
      = (specWriteTrace [7] 1 (progress_step 1), Outcome.done, [7]) :=
  write_mode_trace 1 1 [7] rfl (by omega) (by omega)

/-- Claim C8, counterexample to the claim as stated: at the first chunk
of a 4 GiB job (`totalBytes = 2^32`, chunk index 0) the truncated `int n`
is 0, not `min(chunkSize, totalBytes - 0 * chunkSize) = chunkSize` — the
engine transfers zero bytes for that chunk.  The run shown makes this
observable end to end: with `st_size = 2^32`, the first iteration reads
and writes 0 bytes (succeeding even though the source yields nothing),
and the job then dies on the next chunk — the spec-mandated trace is
never produced. -/
theorem chunk_size_truncation_counterexample :
    chunkN (2 ^ 32) = 0 ∧
    ¬ (chunkN (2 ^ 32) = min chunkSize (2 ^ 32 - 0 * chunkSize)) ∧
    write_image_write (2 ^ 32) [] (2 ^ 32)
      = ([Event.srcRead [], Event.devWrite []], Outcome.srcReadError, []) := by
  refine ⟨by decide, by decide, ?_⟩
  rfl

/-- POSIX wait semantics: the status observed by the parent is the low
byte of the code passed to `exit`. -/
def exitStatus (code : Int) : Nat := (code.emod 256).toNat

/-- Model of `quit(ok)` (sdwriter.c:67-70): `exit(ok ? 0 : -1)`. -/
def quit (ok : Int) : Nat := exitStatus (if ok ≠ 0 then 0 else -1)

/-- The process-termination paths of sdwriter, each modelling the exact
exit call the source makes there:
`success` is `quit(1)` in `main` (line 798); `helpRequested` is `exit(0)`
in `usage` (line 742); `versionRequested` is `return 0` in `main`
(line 781); `interruptSignal` is `quit(0)` in the `interrupted` handler
(lines 75-79); `cancelSelection` (reply `q`), `stdinEof` and `noDevices`
are the `quit(0)` calls in `ask_device` (lines 427-452); `openError`,
`shortTransfer` and `verifyMismatchExit` are the `quit(0)` calls on open
failure, short transfer and data mismatch. -/
inductive ExitPath where
  | success
  | helpRequested
  | versionRequested
  | interruptSignal
  | cancelSelection
  | stdinEof
  | noDevices
  | openError
  | shortTransfer
  | verifyMismatchExit
deriving DecidableEq, Fintype

/-- The exit status of each termination path, per the call it makes. -/
def exit_status : ExitPath → Nat
  | .success => quit 1
  | .helpRequested => exitStatus 0
  | .versionRequested => exitStatus 0
  | .interruptSignal => quit 0
  | .cancelSelection => quit 0
  | .stdinEof => quit 0
  | .noDevices => quit 0
  | .openError => quit 0
  | .shortTransfer => quit 0
  | .verifyMismatchExit => quit 0

/-- Claim C5, counterexample to the claim as stated: interrupt-signal
cancellation goes through `quit(0)` = `exit(-1)`, status 255 — not 0. -/
theorem interrupt_exit_zero_counterexample :
    ¬ (exit_status ExitPath.interruptSignal = 0) := by
  decide

/-- Claim C5 (corrected), the amended statement: status 0 on success and
on the help/version no-op paths only; every other path — genuine errors
and user-initiated cancellation alike (interrupt signal, declining
selection, stdin EOF) — terminates with status 255. -/
theorem exit_status_classification :
    exit_status ExitPath.success = 0 ∧
    exit_status ExitPath.helpRequested = 0 ∧
    exit_status ExitPath.versionRequested = 0 ∧
    ∀ p : ExitPath, p ≠ ExitPath.success → p ≠ ExitPath.helpRequested →
      p ≠ ExitPath.versionRequested → exit_status p = 255 := by
  decide

/-- Witness for the amended C5: the user-decline path exits 255. -/
theorem exit_status_classification_witness :
    exit_status ExitPath.cancelSelection = 255 :=
  exit_status_classification.2.2.2 ExitPath.cancelSelection
    (by decide) (by decide) (by decide)

/-- A udev `block`-subsystem entry as the Linux backend of `get_devices`
inspects it (sdwriter.c:127-181): whether a usb/usb_device parent exists,
the first character of the `removable` sysfs attribute (`none` when the
attribute is missing), the size in 512-byte blocks, and the `/dev` node
path.  The sprintf label formatting is not modelled; surviving entries
are returned as is. -/
structure UdevEntry where
  hasUsbParent : Bool
  removableAttr : Option Char
  sizeBlocks : Nat
  devnode : String
deriving DecidableEq

/-- Result of `get_devices`: either the process terminated — the
`quit(0)` on `udev_new` failure (sdwriter.c:109-112) — or the surviving
entries (at most `maxdev` of them; the loop breaks at `maxdev`). -/
inductive GetDevicesResult where
  | terminated (status : Nat)
  | ok (devs : List UdevEntry)
deriving DecidableEq

/-- The Linux backend of `get_devices` (sdwriter.c:104-185): if
`udev_new` fails, print a diagnostic and call `quit(0)`; otherwise keep
the entries that have a usb parent, whose `removable` attribute starts
with '1', and whose size is nonzero. -/
def get_devices (udevOk : Bool) (entries : List UdevEntry) (maxdev : Nat) :
    GetDevicesResult :=
  if ! udevOk then .terminated (quit 0)
  else .ok ((entries.filter fun d =>
      d.hasUsbParent && d.removableAttr == some '1' && d.sizeBlocks != 0).take maxdev)

/-- Claim C6, counterexample to the claim as stated: when udev cannot be
initialized the Linux backend terminates the process with status 255; it
does not return an empty device list. -/
theorem udev_failure_counterexample :
    get_devices false [] 9 = GetDevicesResult.terminated 255 ∧
    ¬ (get_devices false [] 9 = GetDevicesResult.ok []) := by
  exact ⟨rfl, by decide⟩

/-- Claim C6 (corrected), the amended statement: if the discovery
mechanism cannot be initialized, `get_devices` prints a diagnostic and
terminates the process with nonzero status 255, never returning a device
list to its caller. -/
theorem udev_failure_terminates (entries : List UdevEntry) (maxdev : Nat) :
    get_devices false entries maxdev = GetDevicesResult.terminated 255 := by
  rfl

/-- Model of `struct timeval`. -/
structure Timeval where
  tv_sec : Int
  tv_usec : Int
deriving DecidableEq

/-- Model of `mseconds_elapsed` (sdwriter.c:84-95): the difference is computed in
signed 64-bit arithmetic, `(t1.tv_sec - t0.tv_sec) * 1000 +
(t1.tv_usec - t0.tv_usec) / 1000` with C division truncating toward
zero, converted to the 32-bit `unsigned` result variable (mod 2^32), then
clamped below at 1 (`if (mseconds < 1) mseconds = 1`). -/
def mseconds_elapsed (t0 t1 : Timeval) : Nat :=
  let raw : Int := (t1.tv_sec - t0.tv_sec) * 1000 + (t1.tv_usec - t0.tv_usec).tdiv 1000
  let msec : Nat := (raw.emod (2 ^ 32)).toNat
  if msec < 1 then 1 else msec

/-- Claim C10: the elapsed-time helper never returns less than one
millisecond, for every pair of times, so the completion-report division
`nbytes / 1000.0 / mseconds_elapsed(&t0)` never divides by zero. -/
theorem mseconds_elapsed_pos (t0 t1 : Timeval) :
    1 ≤ mseconds_elapsed t0 t1 ∧ mseconds_elapsed t0 t1 ≠ 0 := by
  simp only [mseconds_elapsed]
  split <;> omega

end Sdwriter
